import Mathlib

/-!
Verification of the read-side operations of the irregular voxel grid of
hagrid (file src/grid.h). The C++ code is shallowly embedded:

* machine integers become `Int` or `Nat`, with an explicit `% 2 ^ w`
  wherever wrap-around can occur;
* the C cast `int(...)` applied to a floating-point value becomes
  truncation toward zero of an exact rational (`ratTrunc`);
* C arrays become `List` values read through a totalized accessor; any
  access outside the range guaranteed by the caller is undefined
  behaviour in the source, so theorems carry the corresponding
  in-bounds hypotheses;
* the two unbounded `while` loops (`lookup_entry` and both
  `foreach_ref` variants) become fuel-indexed recursive functions; the
  fuel chosen is shown sufficient under the well-formedness
  preconditions the source documents;
* the visitor argument `f` of `foreach_ref` is modelled by returning
  the list of values it is applied to, in application order, next to
  the int the function returns.
-/

namespace Hagrid

/-- Integer 3-vector, as the `ivec3` of vec.h (three C `int` values). -/
structure ivec3 where
  x : Int
  y : Int
  z : Int
deriving DecidableEq

/-- Unsigned-short 3-vector, as the `usvec3` of vec.h; each component is a
16-bit unsigned value, modelled as `Nat` (theorems about packed transfer
carry the `< 2 ^ 16` bounds the C type guarantees). -/
structure usvec3 where
  x : Nat
  y : Nat
  z : Nat
deriving DecidableEq

/-- Voxel map entry: a 32-bit record with a 2-bit `log_dim` field and a
30-bit `begin` field (grid.h lines 12-20). -/
structure Entry where
  log_dim : Nat
  begin : Nat
deriving DecidableEq

instance : Inhabited Entry := ⟨⟨0, 0⟩⟩

/-- Uncompressed cell of the irregular grid (grid.h lines 23-33). -/
structure Cell where
  min : ivec3
  begin : Int
  max : ivec3
  «end» : Int
deriving DecidableEq

instance : Inhabited Cell := ⟨⟨⟨0, 0, 0⟩, 0, ⟨0, 0, 0⟩, 0⟩⟩

/-- Compressed cell of the irregular grid (grid.h lines 36-45). -/
structure SmallCell where
  min : usvec3
  max : usvec3
  begin : Int
deriving DecidableEq

/-- A 3D integer range (grid.h lines 65-75). -/
structure Range where
  lx : Int
  ly : Int
  lz : Int
  hx : Int
  hy : Int
  hz : Int
deriving DecidableEq

/-- Read of a C `int` array at a (signed) index. In-range accesses are the
only ones the source performs on well-formed inputs; the totalizing
default is irrelevant under the in-bounds hypotheses of the theorems. -/
def getI (r : List Int) (i : Int) : Int :=
  r.getD i.toNat 0

/-- The contiguous index window `[b, e)` of a reference array, as a list. -/
def slice (r : List Int) (b e : Int) : List Int :=
  (r.drop b.toNat).take (e - b).toNat

/-- Loop body of `foreach_ref(Cell)` (grid.h lines 121-126): while the
current reference is nonnegative, preload the next one (or -1 past the
end), visit the current one, continue. Returns the visited references in
visitation order. The fuel argument only bounds the iteration count; it
is chosen large enough in `foreach_ref_cell`. -/
def cellRefsGo (r : List Int) (e : Int) : Nat → Int → Int → List Int
  | 0, _, _ => []
  | fuel + 1, cur, ref =>
    if 0 ≤ ref then
      ref :: cellRefsGo r e fuel (if cur < e then cur + 1 else cur)
        (if cur < e then getI r cur else -1)
    else []

/-- Model of `foreach_ref(Cell cell, const int* ref_ids, F f)` (grid.h
lines 118-128). First component: the values `f` is applied to, in
order; second component: the returned count `cell.end - cell.begin`. -/
def foreach_ref_cell (c : Cell) (r : List Int) : List Int × Int :=
  let fuel := (c.«end» - c.begin).toNat + 1
  let ref0 := if c.begin < c.«end» then getI r c.begin else -1
  let cur1 := if c.begin < c.«end» then c.begin + 1 else c.begin
  (cellRefsGo r c.«end» fuel cur1 ref0, c.«end» - c.begin)

/-- Loop of `foreach_ref(SmallCell)` (grid.h lines 134-138): while the
current reference is nonnegative, read the next position unconditionally,
visit, continue. Returns the visited values and the final value of
`cur`. -/
def smallRefsGo (r : List Int) : Nat → Int → Int → List Int × Int
  | 0, cur, _ => ([], cur)
  | fuel + 1, cur, ref =>
    if 0 ≤ ref then
      let p := smallRefsGo r fuel (cur + 1) (getI r cur)
      (ref :: p.1, p.2)
    else ([], cur)

/-- Model of `foreach_ref(SmallCell small_cell, const int* ref_ids, F f)`
(grid.h lines 130-140). First component: the values `f` is applied to, in
order; second component: the returned count `cur - small_cell.begin`.
The fuel `r.length + 2` bounds the loop under the documented precondition
that the chain ends with a -1 sentinel inside the array. -/
def foreach_ref_small (sc : SmallCell) (r : List Int) : List Int × Int :=
  if 0 ≤ sc.begin then
    let p := smallRefsGo r (r.length + 2) (sc.begin + 1) (getI r sc.begin)
    (p.1, p.2 - sc.begin)
  else ([], 0)

/-- The consecutive values `getI r b, getI r (b+1), ..., getI r (b+n-1)`:
the references of a sentinel-terminated chain of length `n` rooted at
`b`. -/
def chain (r : List Int) (b : Int) : Nat → List Int
  | 0 => []
  | n + 1 => getI r b :: chain r (b + 1) n

/-- The bit pattern of a C `int` reinterpreted as a 32-bit unsigned value,
as in the cast `(uint)cell.begin` of `store_cell` (grid.h line 175). -/
def toUInt32 (i : Int) : Nat :=
  (i % 2 ^ 32).toNat

/-- A 32-bit unsigned value reinterpreted as a two's-complement C `int`,
as in the implicit conversion of `cell.w` back to the `begin` field in
`load_cell` (grid.h line 167). -/
def toInt32 (n : Nat) : Int :=
  if n % 2 ^ 32 < 2 ^ 31 then ((n % 2 ^ 32 : Nat) : Int)
  else ((n % 2 ^ 32 : Nat) : Int) - 2 ^ 32

/-- Model of `store_cell(Cell*, const Cell&)` (grid.h lines 156-160): two
aligned 128-bit words, each made of four 32-bit lanes, holding
(min.x, min.y, min.z, begin) and (max.x, max.y, max.z, end). -/
def store_cell_full (c : Cell) : (Int × Int × Int × Int) × (Int × Int × Int × Int) :=
  ((c.min.x, c.min.y, c.min.z, c.begin), (c.max.x, c.max.y, c.max.z, c.«end»))

/-- Model of `load_cell(const Cell*)` (grid.h lines 143-149): reads the two
128-bit words back into a `Cell`. -/
def load_cell_full (w : (Int × Int × Int × Int) × (Int × Int × Int × Int)) : Cell :=
  ⟨⟨w.1.1, w.1.2.1, w.1.2.2.1⟩, w.1.2.2.2, ⟨w.2.1, w.2.2.1, w.2.2.2.1⟩, w.2.2.2.2⟩

/-- Model of `store_cell(const SmallCell*, const SmallCell&)` (grid.h
lines 170-176): one 128-bit word of four 32-bit lanes, the six 16-bit
coordinates packed two to a lane with bitwise or and shift, plus the
`begin` bit pattern. Each lane is a 32-bit unsigned value, hence the
explicit `% 2 ^ 32`. -/
def store_cell_small (c : SmallCell) : Nat × Nat × Nat × Nat :=
  ((c.min.x ||| (c.min.y <<< 16)) % 2 ^ 32,
   (c.min.z ||| (c.max.x <<< 16)) % 2 ^ 32,
   (c.max.y ||| (c.max.z <<< 16)) % 2 ^ 32,
   toUInt32 c.begin)

/-- Model of `load_cell(const SmallCell*)` (grid.h lines 162-168): each
16-bit coordinate is recovered by shifting and the unsigned-short
conversion (`% 2 ^ 16`). -/
def load_cell_small (w : Nat × Nat × Nat × Nat) : SmallCell :=
  ⟨⟨w.1 % 2 ^ 16, (w.1 >>> 16) % 2 ^ 16, w.2.1 % 2 ^ 16⟩,
   ⟨(w.2.1 >>> 16) % 2 ^ 16, w.2.2.1 % 2 ^ 16, (w.2.2.1 >>> 16) % 2 ^ 16⟩,
   toInt32 w.2.2.2⟩

/-- Modelled from the spec words for the SmallCell wire format: each
32-bit subword is the low 16-bit lane plus the high 16-bit lane times
`2 ^ 16`, in the field order (min.x, min.y), (min.z, max.x),
(max.y, max.z), then the raw `begin` bit pattern. -/
def smallCellPackedSpec (c : SmallCell) : Nat × Nat × Nat × Nat :=
  (c.min.x + c.min.y * 2 ^ 16,
   c.min.z + c.max.x * 2 ^ 16,
   c.max.y + c.max.z * 2 ^ 16,
   toUInt32 c.begin)

/-- Float 3-vector (`vec3` of vec.h). The C `float` computations of
`compute_range` and `compute_grid_dims` are idealized as exact
rationals. -/
structure vec3q where
  x : ℚ
  y : ℚ
  z : ℚ
deriving DecidableEq

/-- Axis-aligned bounding box (`BBox` of bbox.h): minimum and maximum
corner. -/
structure BBox where
  min : vec3q
  max : vec3q
deriving DecidableEq

/-- The extents of a bounding box, `max - min` componentwise. -/
def BBox.extents (b : BBox) : vec3q :=
  ⟨b.max.x - b.min.x, b.max.y - b.min.y, b.max.z - b.min.z⟩

/-- Truncation toward zero: the C cast `int(...)` applied to a
floating-point value. -/
def ratTrunc (q : ℚ) : Int :=
  if 0 ≤ q then ⌊q⌋ else ⌈q⌉

/-- Model of `compute_range` (grid.h lines 84-93): maps a query box into
integer voxel bounds, scaling each offset from the grid minimum by
`dims / extents`, truncating, and clamping the low bounds at 0 and the
high bounds at `dims - 1`. -/
def compute_range (dims : ivec3) (grid_bb obj_bb : BBox) : Range :=
  let inv : vec3q :=
    ⟨(dims.x : ℚ) / (BBox.extents grid_bb).x,
     (dims.y : ℚ) / (BBox.extents grid_bb).y,
     (dims.z : ℚ) / (BBox.extents grid_bb).z⟩
  ⟨max (ratTrunc ((obj_bb.min.x - grid_bb.min.x) * inv.x)) 0,
   max (ratTrunc ((obj_bb.min.y - grid_bb.min.y) * inv.y)) 0,
   max (ratTrunc ((obj_bb.min.z - grid_bb.min.z) * inv.z)) 0,
   min (ratTrunc ((obj_bb.max.x - grid_bb.min.x) * inv.x)) (dims.x - 1),
   min (ratTrunc ((obj_bb.max.y - grid_bb.min.y) * inv.y)) (dims.y - 1),
   min (ratTrunc ((obj_bb.max.z - grid_bb.min.z) * inv.z)) (dims.z - 1)⟩

/-- Model of `compute_grid_dims` (grid.h lines 96-101), the density
formula of Cleary et al. The C library call `cbrtf` has no exact rational
counterpart, so the cube root is an explicit oracle parameter of the
model; the theorems hold for every oracle. -/
def compute_grid_dims (cbrt : ℚ → ℚ) (bb : BBox) (num_prims : Int)
    (density : ℚ) : ivec3 :=
  let ex := (BBox.extents bb).x
  let ey := (BBox.extents bb).y
  let ez := (BBox.extents bb).z
  let volume := ex * ey * ez
  let rt := cbrt (density * (num_prims : ℚ) / volume)
  ⟨max 1 (ratTrunc (ex * rt)), max 1 (ratTrunc (ey * rt)),
    max 1 (ratTrunc (ez * rt))⟩

/-- C arithmetic shift right of a two's-complement signed int by `n` bits:
floor division by `2 ^ n`, which is euclidean division by a positive
power. -/
def asr (x : Int) (n : Nat) : Int :=
  x / 2 ^ n

/-- Two's-complement `x & ((1 << l) - 1)`: the nonnegative remainder
modulo `2 ^ l`. -/
def maskLow (x : Int) (l : Nat) : Int :=
  x % 2 ^ l

/-- Flattened child index `begin + k.x + ((k.y + (k.z << log_dim)) <<
log_dim)` of `lookup_entry` (grid.h line 111), over `Nat`. -/
def childIdx (bn l kx ky kz : Nat) : Nat :=
  bn + kx + (ky + kz * 2 ^ l) * 2 ^ l

/-- The descent loop of `lookup_entry` (grid.h lines 106-114), fuel
indexed. The state is the current entry together with the accumulated
depth `d` (the sum of the `log_dim` values fetched so far, the current
entry included, as in the source). The C shift amount `int(shift - d)`
becomes `Nat` subtraction, which agrees with the source under the
precondition `d ≤ shift` that well-formed grids guarantee. On well-formed
grids the loop runs at most `shift` times, so the fuel `shift + 1` used
by `lookup_entry` never runs out; fuel exhaustion returns `none`. -/
def lookupLoop (entries : List Entry) (shift : Nat) (voxel : ivec3) :
    Nat → Entry → Nat → Option Nat
  | 0, entry, _ =>
    if entry.log_dim = 0 then some entry.begin else none
  | fuel + 1, entry, d =>
    if entry.log_dim = 0 then some entry.begin
    else
      let l := entry.log_dim
      let kx := maskLow (asr voxel.x (shift - d)) l
      let ky := maskLow (asr voxel.y (shift - d)) l
      let kz := maskLow (asr voxel.z (shift - d)) l
      let e2 := entries.getD
        ((entry.begin : Int) + kx + (ky + kz * (2 : Int) ^ l) * 2 ^ l).toNat
        default
      lookupLoop entries shift voxel fuel e2 (d + e2.log_dim)

/-- Model of `lookup_entry(entries, shift, dims, voxel)` (grid.h lines
103-116): fetch the top-level entry addressed by `voxel >> shift` against
`dims`, then descend while the entry is internal. -/
def lookup_entry (entries : List Entry) (shift : Nat) (dims : ivec3)
    (voxel : ivec3) : Option Nat :=
  let ti := asr voxel.x shift +
    dims.x * (asr voxel.y shift + dims.y * asr voxel.z shift)
  let e0 := entries.getD ti.toNat default
  lookupLoop entries shift voxel (shift + 1) e0 e0.log_dim

/-- A voxel lies inside the inclusive min and max bounds of a cell. -/
def inCell (c : Cell) (v : ivec3) : Prop :=
  c.min.x ≤ v.x ∧ c.min.y ≤ v.y ∧ c.min.z ≤ v.z ∧
  v.x ≤ c.max.x ∧ v.y ≤ c.max.y ∧ v.z ≤ c.max.z

instance (c : Cell) (v : ivec3) : Decidable (inCell c v) := by
  unfold inCell
  infer_instance

/-- Valid subtree of the voxel map rooted at an entry: the subtree covers
the axis-aligned block of finest-level voxels of side `2 ^ s` whose
minimum corner is `corner`. A leaf entry points inside the cell array at
a cell whose stored bounds are exactly that block; an internal entry with
`log_dim = l` (0 < l ≤ s) owns a complete block of `8 ^ l` child entries
inside the entry array, the child `(kx, ky, kz)` covering the sub-block
of side `2 ^ (s - l)` at the corresponding offset. This is the hierarchy
consistency that the external builder guarantees for a frozen grid. -/
inductive ValidNode (entries : List Entry) (cells : List Cell) :
    Nat → ivec3 → Entry → Prop where
  | leaf (s : Nat) (corner : ivec3) (e : Entry) :
      e.log_dim = 0 →
      e.begin < cells.length →
      (cells.getD e.begin default).min = corner →
      (cells.getD e.begin default).max =
        ⟨corner.x + 2 ^ s - 1, corner.y + 2 ^ s - 1, corner.z + 2 ^ s - 1⟩ →
      ValidNode entries cells s corner e
  | node (s : Nat) (corner : ivec3) (e : Entry) :
      0 < e.log_dim → e.log_dim ≤ s →
      (∀ kx ky kz : Nat, kx < 2 ^ e.log_dim → ky < 2 ^ e.log_dim →
        kz < 2 ^ e.log_dim →
        childIdx e.begin e.log_dim kx ky kz < entries.length) →
      (∀ kx ky kz : Nat, kx < 2 ^ e.log_dim → ky < 2 ^ e.log_dim →
        kz < 2 ^ e.log_dim →
        ValidNode entries cells (s - e.log_dim)
          ⟨corner.x + (kx : Int) * 2 ^ (s - e.log_dim),
           corner.y + (ky : Int) * 2 ^ (s - e.log_dim),
           corner.z + (kz : Int) * 2 ^ (s - e.log_dim)⟩
          (entries.getD (childIdx e.begin e.log_dim kx ky kz) default)) →
      ValidNode entries cells s corner e

/-- The cell index stored by some leaf entry reachable from `e` by child
steps through the hierarchy. -/
inductive LeafIn (entries : List Entry) :
    Nat → ivec3 → Entry → Nat → Prop where
  | here (s : Nat) (corner : ivec3) (e : Entry) :
      e.log_dim = 0 → LeafIn entries s corner e e.begin
  | child (s : Nat) (corner : ivec3) (e : Entry) (kx ky kz ci : Nat) :
      0 < e.log_dim →
      kx < 2 ^ e.log_dim → ky < 2 ^ e.log_dim → kz < 2 ^ e.log_dim →
      LeafIn entries (s - e.log_dim)
        ⟨corner.x + (kx : Int) * 2 ^ (s - e.log_dim),
         corner.y + (ky : Int) * 2 ^ (s - e.log_dim),
         corner.z + (kz : Int) * 2 ^ (s - e.log_dim)⟩
        (entries.getD (childIdx e.begin e.log_dim kx ky kz) default) ci →
      LeafIn entries s corner e ci

/-- Well-formed frozen grid in the uncompressed representation: positive
top-level dims and, below every in-range top-level entry, a valid
hierarchy covering its block of `2 ^ shift`-sided voxel space. -/
structure GridWF (entries : List Entry) (cells : List Cell) (shift : Nat)
    (dims : ivec3) : Prop where
  dims_x : 0 < dims.x
  dims_y : 0 < dims.y
  dims_z : 0 < dims.z
  top : ∀ a b c : Nat, (a : Int) < dims.x → (b : Int) < dims.y →
    (c : Int) < dims.z →
    ValidNode entries cells shift
      ⟨(a : Int) * 2 ^ shift, (b : Int) * 2 ^ shift, (c : Int) * 2 ^ shift⟩
      (entries.getD (a + dims.x.toNat * (b + dims.y.toNat * c)) default)

/-- A cell index is a leaf cell of the grid when some in-range top-level
entry reaches it. -/
def IsLeafCell (entries : List Entry) (shift : Nat) (dims : ivec3)
    (ci : Nat) : Prop :=
  ∃ a b c : Nat, (a : Int) < dims.x ∧ (b : Int) < dims.y ∧
    (c : Int) < dims.z ∧
    LeafIn entries shift
      ⟨(a : Int) * 2 ^ shift, (b : Int) * 2 ^ shift, (c : Int) * 2 ^ shift⟩
      (entries.getD (a + dims.x.toNat * (b + dims.y.toNat * c)) default) ci

/-- The set of child indices of the block owned by an internal entry. -/
def InBlock (e : Entry) (j : Nat) : Prop :=
  ∃ kx ky kz : Nat, kx < 2 ^ e.log_dim ∧ ky < 2 ^ e.log_dim ∧
    kz < 2 ^ e.log_dim ∧ j = childIdx e.begin e.log_dim kx ky kz

/-- Depth-bounded descent below an entry: along every chain of child
blocks the accumulated `log_dim` never exceeds the budget `b`. This is
the well-formedness condition of the claim (accumulated depth along any
descent never exceeding `shift`). -/
inductive DescentBounded (entries : List Entry) : Entry → Nat → Prop where
  | leaf (e : Entry) (b : Nat) : e.log_dim = 0 → DescentBounded entries e b
  | node (e : Entry) (b : Nat) :
      0 < e.log_dim → e.log_dim ≤ b →
      (∀ j : Nat, InBlock e j →
        DescentBounded entries (entries.getD j default) (b - e.log_dim)) →
      DescentBounded entries e b

/-- Concrete example grid: one top-level entry of `log_dim` 1 whose eight
children are leaves, `shift = 1`, `dims = (1, 1, 1)`. -/
def entriesEx : List Entry :=
  [⟨1, 1⟩, ⟨0, 0⟩, ⟨0, 1⟩, ⟨0, 2⟩, ⟨0, 3⟩, ⟨0, 4⟩, ⟨0, 5⟩, ⟨0, 6⟩, ⟨0, 7⟩]

/-- Cells of the example grid: unit cells covering the eight voxels of
the 2x2x2 block, in child order. -/
def cellsEx : List Cell :=
  [⟨⟨0, 0, 0⟩, 0, ⟨0, 0, 0⟩, 0⟩, ⟨⟨1, 0, 0⟩, 0, ⟨1, 0, 0⟩, 0⟩,
   ⟨⟨0, 1, 0⟩, 0, ⟨0, 1, 0⟩, 0⟩, ⟨⟨1, 1, 0⟩, 0, ⟨1, 1, 0⟩, 0⟩,
   ⟨⟨0, 0, 1⟩, 0, ⟨0, 0, 1⟩, 0⟩, ⟨⟨1, 0, 1⟩, 0, ⟨1, 0, 1⟩, 0⟩,
   ⟨⟨0, 1, 1⟩, 0, ⟨0, 1, 1⟩, 0⟩, ⟨⟨1, 1, 1⟩, 0, ⟨1, 1, 1⟩, 0⟩]

theorem slice_cons (r : List Int) (cur e : Int) (h0 : 0 ≤ cur)
    (hlt : cur < e) (hle : e ≤ (r.length : Int)) :
    slice r cur e = getI r cur :: slice r (cur + 1) e := by
  have hcur : cur.toNat < r.length := by omega
  have hdrop := List.drop_eq_getElem_cons hcur
  have htake : (e - cur).toNat = (e - (cur + 1)).toNat + 1 := by omega
  have hsucc : (cur + 1).toNat = cur.toNat + 1 := by omega
  have hget : getI r cur = r[cur.toNat] := by
    simp [getI, List.getD_eq_getElem?_getD, List.getElem?_eq_getElem hcur]
  rw [slice, hdrop, htake, List.take_succ_cons, slice, hsucc, hget]

theorem slice_nil (r : List Int) (cur e : Int) (h : e ≤ cur) :
    slice r cur e = [] := by
  have : (e - cur).toNat = 0 := by omega
  simp [slice, this]

theorem cellRefsGo_neg (r : List Int) (e : Int) (fuel : Nat) (cur ref : Int)
    (h : ref < 0) : cellRefsGo r e fuel cur ref = [] := by
  cases fuel with
  | zero => rfl
  | succ fuel => rw [cellRefsGo, if_neg (by omega)]

theorem cellRefsGo_eq (r : List Int) (e : Int) (he : e ≤ (r.length : Int)) :
    ∀ (fuel : Nat) (cur ref : Int), 0 ≤ cur → (e - cur).toNat < fuel →
    cellRefsGo r e fuel cur ref =
      if 0 ≤ ref then ref :: (slice r cur e).takeWhile (fun x => 0 ≤ x)
      else [] := by
  intro fuel
  induction fuel with
  | zero => intro cur ref _ hf; omega
  | succ fuel ih =>
    intro cur ref h0 hf
    rw [cellRefsGo]
    by_cases href : 0 ≤ ref
    · rw [if_pos href, if_pos href]
      by_cases hcur : cur < e
      · rw [if_pos hcur, if_pos hcur,
          ih (cur + 1) (getI r cur) (by omega) (by omega),
          slice_cons r cur e h0 hcur he, List.takeWhile_cons]
        by_cases hnext : 0 ≤ getI r cur
        · simp [hnext]
        · simp [hnext]
      · rw [if_neg hcur, if_neg hcur, cellRefsGo_neg r e fuel cur (-1) (by omega),
          slice_nil r cur e (by omega)]
        simp
    · rw [if_neg href, if_neg href]

theorem foreach_ref_cell_eq (c : Cell) (r : List Int) (hb : 0 ≤ c.begin)
    (he : c.«end» ≤ (r.length : Int)) :
    foreach_ref_cell c r =
      ((slice r c.begin c.«end»).takeWhile (fun x => 0 ≤ x),
        c.«end» - c.begin) := by
  rw [foreach_ref_cell]
  by_cases hlt : c.begin < c.«end»
  · simp only [if_pos hlt]
    rw [cellRefsGo_eq r c.«end» he _ (c.begin + 1) _ (by omega) (by omega),
      slice_cons r c.begin c.«end» hb hlt he, List.takeWhile_cons]
    by_cases h0 : 0 ≤ getI r c.begin
    · simp [h0]
    · simp [h0]
  · simp only [if_neg hlt]
    rw [cellRefsGo_eq r c.«end» he _ c.begin _ hb (by omega),
      if_neg (by omega), slice_nil r c.begin c.«end» (by omega)]
    simp

/-- Claim C9: for every Cell and reference array, `foreach_ref` returns
`end - begin` regardless of the array contents, while visitation stops at
the first negative value of the slice: the visited references are exactly
the longest nonnegative prefix of the `[begin, end)` slice, so a negative
value inside the slice is never visited, nor is anything after it, yet the
returned count stays `end - begin`. -/
theorem foreach_ref_cell_count_const (c : Cell) (r : List Int)
    (hb : 0 ≤ c.begin) (he : c.«end» ≤ (r.length : Int)) :
    (foreach_ref_cell c r).2 = c.«end» - c.begin ∧
    (foreach_ref_cell c r).1 =
      (slice r c.begin c.«end»).takeWhile (fun x => 0 ≤ x) := by
  rw [foreach_ref_cell_eq c r hb he]
  exact ⟨rfl, rfl⟩

theorem foreach_ref_cell_count_const_witness :
    0 ≤ (0 : Int) ∧ (3 : Int) ≤ (([7, -2, 9] : List Int).length : Int) ∧
    ((foreach_ref_cell ⟨⟨0, 0, 0⟩, 0, ⟨0, 0, 0⟩, 3⟩ [7, -2, 9]).2 = 3 - 0 ∧
      (foreach_ref_cell ⟨⟨0, 0, 0⟩, 0, ⟨0, 0, 0⟩, 3⟩ [7, -2, 9]).1 =
        (slice [7, -2, 9] 0 3).takeWhile (fun x => 0 ≤ x)) :=
  ⟨by decide, by decide,
    foreach_ref_cell_count_const ⟨⟨0, 0, 0⟩, 0, ⟨0, 0, 0⟩, 3⟩ [7, -2, 9]
      (by decide) (by decide)⟩

/-- Claim C2, counterexample: for the Cell with `begin = 0`, `end = 2` and
`ref_ids = [-1, 5]` (defined on all of `[0, 2)`), the code visits no
reference at all, not the stored values `-1, 5` as the claim asserts, even
though it still returns `end - begin = 2`. -/
theorem foreach_ref_cell_counterexample :
    foreach_ref_cell ⟨⟨0, 0, 0⟩, 0, ⟨0, 0, 0⟩, 2⟩ [-1, 5] = ([], 2) ∧
    ([] : List Int) ≠ [-1, 5] := by
  constructor
  · decide
  · decide

/-- Claim C2 (amended): for every Cell and every reference array defined
on `[begin, end)` whose values on that window are all nonnegative,
`foreach_ref` applies `f` to exactly the stored slice values, in stored
order, and returns `end - begin`, the number visited; the one-ahead
prefetch changes neither the set nor the order of visited references. -/
theorem foreach_ref_cell_visits_slice (c : Cell) (r : List Int)
    (hb : 0 ≤ c.begin) (hbe : c.begin ≤ c.«end»)
    (he : c.«end» ≤ (r.length : Int))
    (hpos : ∀ x ∈ slice r c.begin c.«end», 0 ≤ x) :
    foreach_ref_cell c r = (slice r c.begin c.«end», c.«end» - c.begin) := by
  rw [foreach_ref_cell_eq c r hb he,
    List.takeWhile_eq_self_iff.mpr (by simpa using hpos)]

theorem foreach_ref_cell_visits_slice_witness :
    0 ≤ (5 : Int) ∧ (5 : Int) ≤ 9 ∧
    (9 : Int) ≤ (([0, 0, 0, 0, 0, 3, 7, 2, 9] : List Int).length : Int) ∧
    (∀ x ∈ slice [0, 0, 0, 0, 0, 3, 7, 2, 9] 5 9, 0 ≤ x) ∧
    foreach_ref_cell ⟨⟨0, 0, 0⟩, 5, ⟨0, 0, 0⟩, 9⟩ [0, 0, 0, 0, 0, 3, 7, 2, 9]
      = (slice [0, 0, 0, 0, 0, 3, 7, 2, 9] 5 9, 9 - 5) :=
  ⟨by decide, by decide, by decide, by decide,
    foreach_ref_cell_visits_slice ⟨⟨0, 0, 0⟩, 5, ⟨0, 0, 0⟩, 9⟩
      [0, 0, 0, 0, 0, 3, 7, 2, 9] (by decide) (by decide) (by decide)
      (by decide)⟩

theorem smallRefsGo_neg (r : List Int) (fuel : Nat) (cur ref : Int)
    (h : ref < 0) : smallRefsGo r fuel cur ref = ([], cur) := by
  cases fuel with
  | zero => rfl
  | succ fuel => rw [smallRefsGo, if_neg (by omega)]

theorem smallRefsGo_eq (r : List Int) :
    ∀ (n fuel : Nat) (cur ref : Int), n < fuel →
    (∀ i : Nat, i < n → 0 ≤ getI r (cur + i)) →
    getI r (cur + n) < 0 → 0 ≤ ref →
    smallRefsGo r fuel cur ref = (ref :: chain r cur n, cur + n + 1) := by
  intro n
  induction n with
  | zero =>
    intro fuel cur ref hf hpos hneg href
    obtain ⟨fuel, rfl⟩ : ∃ f, fuel = f + 1 := ⟨fuel - 1, by omega⟩
    rw [smallRefsGo, if_pos href]
    have : getI r cur < 0 := by simpa using hneg
    rw [smallRefsGo_neg r fuel (cur + 1) (getI r cur) this]
    show (ref :: [], cur + 1) = _
    rw [Prod.mk.injEq]
    exact ⟨rfl, by push_cast; ring⟩
  | succ n ih =>
    intro fuel cur ref hf hpos hneg href
    obtain ⟨fuel, rfl⟩ : ∃ f, fuel = f + 1 := ⟨fuel - 1, by omega⟩
    rw [smallRefsGo, if_pos href]
    have h0 : 0 ≤ getI r (cur + 0) := hpos 0 (by omega)
    rw [ih fuel (cur + 1) (getI r cur) (by omega)
      (fun i hi => by
        have := hpos (i + 1) (by omega)
        push_cast at this ⊢
        convert this using 2
        ring)
      (by
        have : ((n : Int) + 1) = ((n + 1 : Nat) : Int) := by push_cast; ring
        calc getI r (cur + 1 + n) = getI r (cur + (n + 1 : Nat)) := by
              congr 1; push_cast; ring
          _ < 0 := hneg)
      (by simpa using h0)]
    show (ref :: (getI r cur :: chain r (cur + 1) n), cur + 1 + (n : Int) + 1) = _
    rw [Prod.mk.injEq]
    exact ⟨rfl, by push_cast; ring⟩

/-- Claim C3, counterexample: for `ref_ids = [12, 4, -1]` and a SmallCell
with `begin = 0`, the code visits the two references 12 and 4 but returns
`cur - begin = 3` (the number of positions read, sentinel included), not 2
as the claim asserts. -/
theorem foreach_ref_small_counterexample :
    foreach_ref_small ⟨⟨0, 0, 0⟩, ⟨0, 0, 0⟩, 0⟩ [12, 4, -1] = ([12, 4], 3) ∧
    (3 : Int) ≠ 2 := by
  constructor
  · decide
  · decide

/-- Claim C3 (amended): for every SmallCell whose chain of `n` nonnegative
references starting at `begin` is terminated by a -1 sentinel inside
`ref_ids`, `foreach_ref` applies `f` to each of the `n` references in
chain order, stops at the sentinel, and returns `n + 1` (the number of
positions read, the sentinel position included), not `n`; in particular
for `ref_ids = [12, 4, -1]` and `begin = 0` it visits 12 and 4 and
returns 3. -/
theorem foreach_ref_small_chain (sc : SmallCell) (r : List Int) (n : Nat)
    (hb : 0 ≤ sc.begin) (hin : sc.begin + n < (r.length : Int))
    (hpos : ∀ i : Nat, i < n → 0 ≤ getI r (sc.begin + i))
    (hsent : getI r (sc.begin + n) = -1) :
    foreach_ref_small sc r = (chain r sc.begin n, (n : Int) + 1) := by
  rw [foreach_ref_small, if_pos hb]
  cases n with
  | zero =>
    have hneg : getI r sc.begin < 0 := by
      have := hsent
      simp only [Nat.cast_zero, add_zero] at this
      omega
    rw [smallRefsGo_neg r _ (sc.begin + 1) (getI r sc.begin) hneg]
    show ([], sc.begin + 1 - sc.begin) = _
    rw [Prod.mk.injEq]
    exact ⟨rfl, by push_cast; ring⟩
  | succ n =>
    have h0 : 0 ≤ getI r (sc.begin + 0) := hpos 0 (by omega)
    rw [smallRefsGo_eq r n (r.length + 2) (sc.begin + 1) (getI r sc.begin)
      (by omega)
      (fun i hi => by
        have := hpos (i + 1) (by omega)
        push_cast at this ⊢
        convert this using 2
        ring)
      (by
        rw [show sc.begin + 1 + (n : Int) = sc.begin + ((n + 1 : Nat) : Int)
          by push_cast; ring, hsent]
        omega)
      (by simpa using h0)]
    show (getI r sc.begin :: chain r (sc.begin + 1) n,
      sc.begin + 1 + (n : Int) + 1 - sc.begin) = _
    rw [Prod.mk.injEq]
    exact ⟨rfl, by push_cast; ring⟩

theorem foreach_ref_small_chain_witness :
    0 ≤ (0 : Int) ∧ ((0 : Int) + (2 : Nat) < (([12, 4, -1] : List Int).length : Int)) ∧
    (∀ i : Nat, i < 2 → 0 ≤ getI [12, 4, -1] ((0 : Int) + i)) ∧
    getI [12, 4, -1] ((0 : Int) + (2 : Nat)) = -1 ∧
    foreach_ref_small ⟨⟨0, 0, 0⟩, ⟨0, 0, 0⟩, 0⟩ [12, 4, -1]
      = (chain [12, 4, -1] 0 2, ((2 : Nat) : Int) + 1) :=
  ⟨by decide, by decide, by decide, by decide,
    foreach_ref_small_chain ⟨⟨0, 0, 0⟩, ⟨0, 0, 0⟩, 0⟩ [12, 4, -1] 2
      (by decide) (by decide) (by decide) (by decide)⟩

/-- Claim C10: a SmallCell with negative `begin` is an empty cell: the
result is independent of the reference array (so no element of it is
read), no reference is visited (`f` is never invoked), and the returned
count is 0. -/
theorem foreach_ref_small_empty (sc : SmallCell) (r : List Int)
    (h : sc.begin < 0) : foreach_ref_small sc r = ([], 0) := by
  rw [foreach_ref_small, if_neg (by omega)]

theorem foreach_ref_small_empty_witness :
    (-7 : Int) < 0 ∧
    foreach_ref_small ⟨⟨0, 0, 0⟩, ⟨0, 0, 0⟩, -7⟩ [3, 4, 5] = ([], 0) :=
  ⟨by decide,
    foreach_ref_small_empty ⟨⟨0, 0, 0⟩, ⟨0, 0, 0⟩, -7⟩ [3, 4, 5] (by decide)⟩

theorem lor_shiftLeft_eq_add (a b : Nat) (h : a < 2 ^ 16) :
    a ||| (b <<< 16) = a + b * 2 ^ 16 := by
  have hmod : (a ||| b <<< 16) % 2 ^ 16 = a := by
    rw [← Nat.and_pow_two_sub_one_eq_mod, Nat.and_distrib_right,
      Nat.and_pow_two_sub_one_eq_mod, Nat.and_pow_two_sub_one_eq_mod,
      Nat.mod_eq_of_lt h, Nat.shiftLeft_eq, Nat.mul_mod_left, Nat.or_zero]
  have hshr : (a ||| b <<< 16) >>> 16 = b := by
    apply Nat.eq_of_testBit_eq
    intro i
    rw [Nat.testBit_shiftRight, Nat.testBit_or, Nat.testBit_shiftLeft]
    have ha : a.testBit (16 + i) = false :=
      Nat.testBit_lt_two_pow
        (lt_of_lt_of_le h (Nat.pow_le_pow_right (by norm_num) (by omega)))
    simp [ha]
  calc a ||| b <<< 16
      = 2 ^ 16 * ((a ||| b <<< 16) / 2 ^ 16) + (a ||| b <<< 16) % 2 ^ 16 :=
        (Nat.div_add_mod _ _).symm
    _ = 2 ^ 16 * b + a := by
        rw [← Nat.shiftRight_eq_div_pow, hshr, hmod]
    _ = a + b * 2 ^ 16 := by ring

theorem load_store_small_eq (sc : SmallCell)
    (h1 : sc.min.x < 2 ^ 16) (h2 : sc.min.y < 2 ^ 16) (h3 : sc.min.z < 2 ^ 16)
    (h4 : sc.max.x < 2 ^ 16) (h5 : sc.max.y < 2 ^ 16) (h6 : sc.max.z < 2 ^ 16)
    (hlo : -(2 ^ 31) ≤ sc.begin) (hhi : sc.begin < 2 ^ 31) :
    load_cell_small (store_cell_small sc) = sc := by
  obtain ⟨⟨a1, a2, a3⟩, ⟨a4, a5, a6⟩, bg⟩ := sc
  simp only [store_cell_small, load_cell_small] at *
  rw [lor_shiftLeft_eq_add a1 a2 h1, lor_shiftLeft_eq_add a3 a4 h3,
    lor_shiftLeft_eq_add a5 a6 h5,
    Nat.mod_eq_of_lt (a := a1 + a2 * 2 ^ 16) (by omega),
    Nat.mod_eq_of_lt (a := a3 + a4 * 2 ^ 16) (by omega),
    Nat.mod_eq_of_lt (a := a5 + a6 * 2 ^ 16) (by omega),
    Nat.shiftRight_eq_div_pow, Nat.shiftRight_eq_div_pow,
    Nat.shiftRight_eq_div_pow]
  simp only [SmallCell.mk.injEq, usvec3.mk.injEq]
  refine ⟨⟨by omega, by omega, by omega⟩, ⟨by omega, by omega, by omega⟩, ?_⟩
  unfold toInt32 toUInt32
  split <;> omega

/-- Claim C4: storing then loading a cell is the identity, for both cell
representations, whenever the fields fit their wire widths: for every
`Cell` unconditionally (its lanes are full 32-bit ints), and for every
`SmallCell` whose six coordinates fit 16 bits and whose `begin` fits a
signed 32-bit int. -/
theorem load_store_roundtrip :
    (∀ c : Cell, load_cell_full (store_cell_full c) = c) ∧
    (∀ sc : SmallCell,
      sc.min.x < 2 ^ 16 → sc.min.y < 2 ^ 16 → sc.min.z < 2 ^ 16 →
      sc.max.x < 2 ^ 16 → sc.max.y < 2 ^ 16 → sc.max.z < 2 ^ 16 →
      -(2 ^ 31) ≤ sc.begin → sc.begin < 2 ^ 31 →
      load_cell_small (store_cell_small sc) = sc) := by
  constructor
  · intro c
    rfl
  · intro sc h1 h2 h3 h4 h5 h6 hlo hhi
    exact load_store_small_eq sc h1 h2 h3 h4 h5 h6 hlo hhi

theorem load_store_roundtrip_witness :
    load_cell_full (store_cell_full ⟨⟨-3, 5, 7⟩, 11, ⟨9, -2, 4⟩, 20⟩)
        = ⟨⟨-3, 5, 7⟩, 11, ⟨9, -2, 4⟩, 20⟩ ∧
    ((1 : Nat) < 2 ^ 16 ∧ (2 : Nat) < 2 ^ 16 ∧ (3 : Nat) < 2 ^ 16 ∧
      (65535 : Nat) < 2 ^ 16 ∧ (5 : Nat) < 2 ^ 16 ∧ (6 : Nat) < 2 ^ 16 ∧
      -(2 ^ 31) ≤ (-9 : Int) ∧ (-9 : Int) < 2 ^ 31) ∧
    load_cell_small (store_cell_small ⟨⟨1, 2, 3⟩, ⟨65535, 5, 6⟩, -9⟩)
        = ⟨⟨1, 2, 3⟩, ⟨65535, 5, 6⟩, -9⟩ :=
  ⟨load_store_roundtrip.1 ⟨⟨-3, 5, 7⟩, 11, ⟨9, -2, 4⟩, 20⟩,
    ⟨by norm_num, by norm_num, by norm_num, by norm_num, by norm_num,
      by norm_num, by norm_num, by norm_num⟩,
    load_store_roundtrip.2 ⟨⟨1, 2, 3⟩, ⟨65535, 5, 6⟩, -9⟩ (by norm_num)
      (by norm_num) (by norm_num) (by norm_num) (by norm_num) (by norm_num)
      (by norm_num) (by norm_num)⟩

/-- Claim C5: for a SmallCell with 16-bit coordinate fields, `store_cell`
produces exactly the 128-bit word whose four 32-bit subwords are
min.x + min.y * 2^16, min.z + max.x * 2^16, max.y + max.z * 2^16 and the
begin bit pattern, i.e. two 16-bit lanes per 32-bit subword in exactly
this field order and position; each subword fits 32 bits. -/
theorem store_small_packs_lanes (sc : SmallCell)
    (h1 : sc.min.x < 2 ^ 16) (h2 : sc.min.y < 2 ^ 16) (h3 : sc.min.z < 2 ^ 16)
    (h4 : sc.max.x < 2 ^ 16) (h5 : sc.max.y < 2 ^ 16) (h6 : sc.max.z < 2 ^ 16) :
    store_cell_small sc = smallCellPackedSpec sc ∧
    (store_cell_small sc).1 < 2 ^ 32 ∧
    (store_cell_small sc).2.1 < 2 ^ 32 ∧
    (store_cell_small sc).2.2.1 < 2 ^ 32 ∧
    (store_cell_small sc).2.2.2 < 2 ^ 32 := by
  have e1 := lor_shiftLeft_eq_add sc.min.x sc.min.y h1
  have e2 := lor_shiftLeft_eq_add sc.min.z sc.max.x h3
  have e3 := lor_shiftLeft_eq_add sc.max.y sc.max.z h5
  have hb : toUInt32 sc.begin < 2 ^ 32 := by
    unfold toUInt32
    omega
  constructor
  · simp only [store_cell_small, smallCellPackedSpec, e1, e2, e3]
    rw [Nat.mod_eq_of_lt (by omega), Nat.mod_eq_of_lt (by omega),
      Nat.mod_eq_of_lt (by omega)]
  · refine ⟨?_, ?_, ?_, hb⟩ <;>
      simp only [store_cell_small] <;> exact Nat.mod_lt _ (by norm_num)

theorem store_small_packs_lanes_witness :
    ((1 : Nat) < 2 ^ 16 ∧ (2 : Nat) < 2 ^ 16 ∧ (3 : Nat) < 2 ^ 16 ∧
      (4 : Nat) < 2 ^ 16 ∧ (5 : Nat) < 2 ^ 16 ∧ (65535 : Nat) < 2 ^ 16) ∧
    (store_cell_small ⟨⟨1, 2, 3⟩, ⟨4, 5, 65535⟩, 7⟩
        = smallCellPackedSpec ⟨⟨1, 2, 3⟩, ⟨4, 5, 65535⟩, 7⟩ ∧
      (store_cell_small ⟨⟨1, 2, 3⟩, ⟨4, 5, 65535⟩, 7⟩).1 < 2 ^ 32 ∧
      (store_cell_small ⟨⟨1, 2, 3⟩, ⟨4, 5, 65535⟩, 7⟩).2.1 < 2 ^ 32 ∧
      (store_cell_small ⟨⟨1, 2, 3⟩, ⟨4, 5, 65535⟩, 7⟩).2.2.1 < 2 ^ 32 ∧
      (store_cell_small ⟨⟨1, 2, 3⟩, ⟨4, 5, 65535⟩, 7⟩).2.2.2 < 2 ^ 32) :=
  ⟨⟨by norm_num, by norm_num, by norm_num, by norm_num, by norm_num,
      by norm_num⟩,
    store_small_packs_lanes ⟨⟨1, 2, 3⟩, ⟨4, 5, 65535⟩, 7⟩ (by norm_num)
      (by norm_num) (by norm_num) (by norm_num) (by norm_num) (by norm_num)⟩

theorem max_ratTrunc_zero (q : ℚ) : max (ratTrunc q) 0 = max ⌊q⌋ 0 := by
  rw [ratTrunc]
  split
  · rfl
  · rename_i hq
    have h1 : ⌈q⌉ ≤ 0 := Int.ceil_le.mpr (by push_cast; linarith)
    have h2 : ⌊q⌋ ≤ ⌈q⌉ := Int.floor_le_ceil q
    omega

/-- Claim C6, counterexample: with `dims = (1,1,1)`, a grid box spanning
the unit cube and a query box lying entirely at negative coordinates, the
code returns the high bound `hx = -5`, which lies outside the claimed
interval `[0, dims.x - 1] = [0, 0]`; moreover the claimed formula
`min(floor(offset * scale), dims - 1)` gives -6 there, not -5, because the
C cast truncates toward zero instead of flooring. -/
theorem compute_range_counterexample :
    (compute_range ⟨1, 1, 1⟩ ⟨⟨0, 0, 0⟩, ⟨1, 1, 1⟩⟩
        ⟨⟨-10, -10, -10⟩, ⟨-11 / 2, -11 / 2, -11 / 2⟩⟩).hx = -5 ∧
    ¬ (0 ≤ (-5 : Int) ∧ (-5 : Int) ≤ 1 - 1) ∧
    min ⌊((-11 / 2 : ℚ) - 0) * ((1 : ℚ) / (1 - 0))⌋ ((1 : Int) - 1) = -6 := by
  refine ⟨?_, by omega, ?_⟩
  · show min (ratTrunc ((-11 / 2 - 0) * (1 / (1 - 0)))) (1 - 1) = -5
    have hc : ⌈(-(11 / 2) : ℚ)⌉ = -5 := by
      rw [Int.ceil_eq_iff]
      constructor <;> norm_num
    norm_num [ratTrunc, hc]
  · norm_num

/-- Claim C6 (amended): for positive dims and positive grid extents,
every low bound of the returned range is at least 0 and every high bound
is at most `dims.axis - 1` (a bound can still fall outside the interval
on the other side when the query box lies outside the grid box); each low
bound equals the claimed formula `max(floor((query.min - grid.min) *
scale), 0)` (truncation and floor agree under the clamp at 0), while the
high bounds use truncation toward zero in place of floor; and when the
query box equals the grid box the returned range is the full range
`(0, 0, 0) - (dims.x - 1, dims.y - 1, dims.z - 1)`. -/
theorem compute_range_bounds (dims : ivec3) (gb ob : BBox)
    (hdx : 1 ≤ dims.x) (hdy : 1 ≤ dims.y) (hdz : 1 ≤ dims.z)
    (hex : gb.min.x < gb.max.x) (hey : gb.min.y < gb.max.y)
    (hez : gb.min.z < gb.max.z) :
    (0 ≤ (compute_range dims gb ob).lx ∧ 0 ≤ (compute_range dims gb ob).ly ∧
      0 ≤ (compute_range dims gb ob).lz ∧
      (compute_range dims gb ob).hx ≤ dims.x - 1 ∧
      (compute_range dims gb ob).hy ≤ dims.y - 1 ∧
      (compute_range dims gb ob).hz ≤ dims.z - 1) ∧
    ((compute_range dims gb ob).lx =
        max ⌊(ob.min.x - gb.min.x) * ((dims.x : ℚ) / (gb.max.x - gb.min.x))⌋ 0 ∧
      (compute_range dims gb ob).ly =
        max ⌊(ob.min.y - gb.min.y) * ((dims.y : ℚ) / (gb.max.y - gb.min.y))⌋ 0 ∧
      (compute_range dims gb ob).lz =
        max ⌊(ob.min.z - gb.min.z) * ((dims.z : ℚ) / (gb.max.z - gb.min.z))⌋ 0) ∧
    (ob = gb →
      compute_range dims gb ob =
        ⟨0, 0, 0, dims.x - 1, dims.y - 1, dims.z - 1⟩) := by
  refine ⟨⟨le_max_right _ _, le_max_right _ _, le_max_right _ _,
    min_le_right _ _, min_le_right _ _, min_le_right _ _⟩,
    ⟨max_ratTrunc_zero _, max_ratTrunc_zero _, max_ratTrunc_zero _⟩, ?_⟩
  rintro rfl
  have nx : (ob.max.x - ob.min.x : ℚ) ≠ 0 := sub_ne_zero.mpr (ne_of_gt hex)
  have ny : (ob.max.y - ob.min.y : ℚ) ≠ 0 := sub_ne_zero.mpr (ne_of_gt hey)
  have nz : (ob.max.z - ob.min.z : ℚ) ≠ 0 := sub_ne_zero.mpr (ne_of_gt hez)
  have cx : (ob.max.x - ob.min.x) * ((dims.x : ℚ) / (ob.max.x - ob.min.x))
      = (dims.x : ℚ) := by field_simp
  have cy : (ob.max.y - ob.min.y) * ((dims.y : ℚ) / (ob.max.y - ob.min.y))
      = (dims.y : ℚ) := by field_simp
  have cz : (ob.max.z - ob.min.z) * ((dims.z : ℚ) / (ob.max.z - ob.min.z))
      = (dims.z : ℚ) := by field_simp
  have tz : ratTrunc 0 = 0 := by norm_num [ratTrunc]
  have tcast : ∀ n : Int, 0 ≤ n → ratTrunc (n : ℚ) = n := fun n hn => by
    rw [ratTrunc, if_pos (by exact_mod_cast hn), Int.floor_intCast]
  show Range.mk
      (max (ratTrunc ((ob.min.x - ob.min.x) * _)) 0) _ _ _ _ _ = _
  simp only [compute_range, BBox.extents, sub_self, zero_mul, tz,
    Range.mk.injEq, cx, cy, cz]
  refine ⟨by omega, by omega, by omega, ?_, ?_, ?_⟩ <;>
    rw [tcast _ (by omega)] <;> omega

theorem compute_range_bounds_witness :
    ((1 : Int) ≤ 2 ∧ (1 : Int) ≤ 2 ∧ (1 : Int) ≤ 2 ∧
      (0 : ℚ) < 1 ∧ (0 : ℚ) < 1 ∧ (0 : ℚ) < 1) ∧
    (0 ≤ (compute_range ⟨2, 2, 2⟩ ⟨⟨0, 0, 0⟩, ⟨1, 1, 1⟩⟩
        ⟨⟨0, 0, 0⟩, ⟨1, 1, 1⟩⟩).lx ∧
      compute_range ⟨2, 2, 2⟩ ⟨⟨0, 0, 0⟩, ⟨1, 1, 1⟩⟩ ⟨⟨0, 0, 0⟩, ⟨1, 1, 1⟩⟩
        = ⟨0, 0, 0, 2 - 1, 2 - 1, 2 - 1⟩) :=
  ⟨⟨by norm_num, by norm_num, by norm_num, by norm_num, by norm_num,
      by norm_num⟩,
    (compute_range_bounds ⟨2, 2, 2⟩ ⟨⟨0, 0, 0⟩, ⟨1, 1, 1⟩⟩
        ⟨⟨0, 0, 0⟩, ⟨1, 1, 1⟩⟩ (by norm_num) (by norm_num) (by norm_num)
        (by norm_num) (by norm_num) (by norm_num)).1.1,
    (compute_range_bounds ⟨2, 2, 2⟩ ⟨⟨0, 0, 0⟩, ⟨1, 1, 1⟩⟩
        ⟨⟨0, 0, 0⟩, ⟨1, 1, 1⟩⟩ (by norm_num) (by norm_num) (by norm_num)
        (by norm_num) (by norm_num) (by norm_num)).2.2 rfl⟩

/-- Claim C8: every axis component of `compute_grid_dims` is at least 1,
for every bounding box, primitive count, density and cube-root oracle;
and when the oracle returns a nonnegative value `rt` on the volume-scaled
input and the extents are nonnegative, each component is exactly the
per-axis extent times `rt`, floored to an integer and clamped to at
least 1. -/
theorem compute_grid_dims_spec (cbrt : ℚ → ℚ) (bb : BBox) (num_prims : Int)
    (density : ℚ) :
    (1 ≤ (compute_grid_dims cbrt bb num_prims density).x ∧
      1 ≤ (compute_grid_dims cbrt bb num_prims density).y ∧
      1 ≤ (compute_grid_dims cbrt bb num_prims density).z) ∧
    (∀ rt : ℚ, 0 ≤ rt →
      cbrt (density * (num_prims : ℚ) /
        ((BBox.extents bb).x * (BBox.extents bb).y * (BBox.extents bb).z))
          = rt →
      0 ≤ (BBox.extents bb).x → 0 ≤ (BBox.extents bb).y →
      0 ≤ (BBox.extents bb).z →
      compute_grid_dims cbrt bb num_prims density =
        ⟨max 1 ⌊(BBox.extents bb).x * rt⌋, max 1 ⌊(BBox.extents bb).y * rt⌋,
          max 1 ⌊(BBox.extents bb).z * rt⌋⟩) := by
  constructor
  · exact ⟨le_max_left _ _, le_max_left _ _, le_max_left _ _⟩
  · intro rt hrt hc hx hy hz
    simp only [compute_grid_dims, hc, ivec3.mk.injEq]
    refine ⟨?_, ?_, ?_⟩ <;>
      rw [ratTrunc, if_pos (mul_nonneg (by assumption) hrt)]

theorem compute_grid_dims_spec_witness :
    (0 ≤ (1 : ℚ) ∧
      (fun _ : ℚ => (1 : ℚ))
        ((1 : ℚ) * ((8 : Int) : ℚ) /
          ((BBox.extents ⟨⟨0, 0, 0⟩, ⟨2, 2, 2⟩⟩).x *
            (BBox.extents ⟨⟨0, 0, 0⟩, ⟨2, 2, 2⟩⟩).y *
            (BBox.extents ⟨⟨0, 0, 0⟩, ⟨2, 2, 2⟩⟩).z)) = 1 ∧
      0 ≤ (BBox.extents ⟨⟨0, 0, 0⟩, ⟨2, 2, 2⟩⟩).x ∧
      0 ≤ (BBox.extents ⟨⟨0, 0, 0⟩, ⟨2, 2, 2⟩⟩).y ∧
      0 ≤ (BBox.extents ⟨⟨0, 0, 0⟩, ⟨2, 2, 2⟩⟩).z) ∧
    compute_grid_dims (fun _ => 1) ⟨⟨0, 0, 0⟩, ⟨2, 2, 2⟩⟩ 8 1 =
      ⟨max 1 ⌊(BBox.extents ⟨⟨0, 0, 0⟩, ⟨2, 2, 2⟩⟩).x * (1 : ℚ)⌋,
        max 1 ⌊(BBox.extents ⟨⟨0, 0, 0⟩, ⟨2, 2, 2⟩⟩).y * (1 : ℚ)⌋,
        max 1 ⌊(BBox.extents ⟨⟨0, 0, 0⟩, ⟨2, 2, 2⟩⟩).z * (1 : ℚ)⌋⟩ :=
  ⟨⟨by norm_num, rfl, by norm_num [BBox.extents], by norm_num [BBox.extents],
      by norm_num [BBox.extents]⟩,
    (compute_grid_dims_spec (fun _ => 1) ⟨⟨0, 0, 0⟩, ⟨2, 2, 2⟩⟩ 8 1).2 1
      (by norm_num) rfl (by norm_num [BBox.extents])
      (by norm_num [BBox.extents]) (by norm_num [BBox.extents])⟩

theorem asr_block (s : Nat) (a x : Int) (hlo : a * 2 ^ s ≤ x)
    (hhi : x < (a + 1) * 2 ^ s) : asr x s = a := by
  have h2 : (0 : Int) < 2 ^ s := by positivity
  have hx : (a + 1) * 2 ^ s = a * 2 ^ s + 2 ^ s := by ring
  have hsplit : x = (x - a * 2 ^ s) + a * 2 ^ s := by ring
  rw [asr, hsplit, Int.add_mul_ediv_right _ _ (ne_of_gt h2),
    Int.ediv_eq_zero_of_lt (by linarith) (by linarith), zero_add]

theorem digit_extract (m l : Nat) (a k x : Int) (hk0 : 0 ≤ k)
    (hk : k < 2 ^ l)
    (hlo : a * 2 ^ (m + l) + k * 2 ^ m ≤ x)
    (hhi : x < a * 2 ^ (m + l) + k * 2 ^ m + 2 ^ m) :
    maskLow (asr x m) l = k := by
  have h2m : (0 : Int) < 2 ^ m := by positivity
  have hsplit : x = (x - a * 2 ^ (m + l) - k * 2 ^ m) + (k + 2 ^ l * a) * 2 ^ m := by
    rw [pow_add]; ring
  have hr0 : 0 ≤ x - a * 2 ^ (m + l) - k * 2 ^ m := by linarith
  have hrlt : x - a * 2 ^ (m + l) - k * 2 ^ m < 2 ^ m := by linarith
  rw [asr, hsplit, Int.add_mul_ediv_right _ _ (ne_of_gt h2m),
    Int.ediv_eq_zero_of_lt hr0 hrlt, zero_add, maskLow,
    Int.add_mul_emod_self_left, Int.emod_eq_of_lt hk0 hk]

theorem natCast_childIdx (bn l kx ky kz : Nat) :
    ((bn : Int) + (kx : Int) + ((ky : Int) + (kz : Int) * 2 ^ l) * 2 ^ l).toNat
      = childIdx bn l kx ky kz := by
  have h : ((bn : Int) + (kx : Int) + ((ky : Int) + (kz : Int) * 2 ^ l) * 2 ^ l)
      = ((childIdx bn l kx ky kz : Nat) : Int) := by
    unfold childIdx
    push_cast
    ring
  rw [h, Int.toNat_natCast]

theorem box_step (l m : Nat) (c lo hi : Int) (k : Nat) (hk : k < 2 ^ l)
    (hlo : c + (k : Int) * 2 ^ m ≤ lo)
    (hhi : hi ≤ c + (k : Int) * 2 ^ m + 2 ^ m - 1) :
    c ≤ lo ∧ hi ≤ c + 2 ^ (m + l) - 1 := by
  have hm : (0 : Int) < 2 ^ m := by positivity
  have hk0 : (0 : Int) ≤ (k : Int) := Int.natCast_nonneg k
  have hkc : ((k : Int) + 1) ≤ 2 ^ l := by exact_mod_cast hk
  have h1 : (0 : Int) ≤ (k : Int) * 2 ^ m := mul_nonneg hk0 (le_of_lt hm)
  have h2 : ((k : Int) + 1) * 2 ^ m ≤ 2 ^ l * 2 ^ m :=
    mul_le_mul_of_nonneg_right hkc (le_of_lt hm)
  have h3 : ((k : Int) + 1) * 2 ^ m = (k : Int) * 2 ^ m + 2 ^ m := by ring
  have hp : (2 : Int) ^ (m + l) = 2 ^ l * 2 ^ m := by
    rw [pow_add]; ring
  exact ⟨by linarith, by linarith⟩

theorem leafIn_box (entries : List Entry) (cells : List Cell)
    {s : Nat} {corner : ivec3} {e : Entry} {ci : Nat}
    (hl : LeafIn entries s corner e ci) :
    ValidNode entries cells s corner e →
    (corner.x ≤ (cells.getD ci default).min.x ∧
      corner.y ≤ (cells.getD ci default).min.y ∧
      corner.z ≤ (cells.getD ci default).min.z) ∧
    ((cells.getD ci default).max.x ≤ corner.x + 2 ^ s - 1 ∧
      (cells.getD ci default).max.y ≤ corner.y + 2 ^ s - 1 ∧
      (cells.getD ci default).max.z ≤ corner.z + 2 ^ s - 1) := by
  induction hl with
  | here s corner e he =>
    intro hv
    cases hv with
    | leaf _ _ _ _ hlen hmin hmax =>
      rw [hmin, hmax]
      exact ⟨⟨le_refl _, le_refl _, le_refl _⟩, le_refl _, le_refl _, le_refl _⟩
    | node _ _ _ hpos _ _ _ => omega
  | child s corner e kx ky kz ci hpos hkx hky hkz hlin ih =>
    intro hv
    cases hv with
    | leaf _ _ _ hld _ _ _ => omega
    | node _ _ _ _ hls _ hch =>
      obtain ⟨⟨i1, i2, i3⟩, ⟨j1, j2, j3⟩⟩ := ih (hch kx ky kz hkx hky hkz)
      dsimp only at i1 i2 i3 j1 j2 j3
      have hse : s - e.log_dim + e.log_dim = s := by omega
      have bx := box_step e.log_dim (s - e.log_dim) corner.x _ _ kx hkx i1 j1
      have by' := box_step e.log_dim (s - e.log_dim) corner.y _ _ ky hky i2 j2
      have bz := box_step e.log_dim (s - e.log_dim) corner.z _ _ kz hkz i3 j3
      rw [hse] at bx by' bz
      exact ⟨⟨bx.1, by'.1, bz.1⟩, bx.2, by'.2, bz.2⟩

theorem lookupLoop_finds (entries : List Entry) (cells : List Cell)
    (shift : Nat) (v : ivec3) :
    ∀ {s : Nat} {corner : ivec3} {e : Entry} {ci : Nat},
    LeafIn entries s corner e ci →
    ValidNode entries cells s corner e →
    ∀ fuel : Nat, s ≤ shift → s ≤ fuel →
    (∃ a : Int, 0 ≤ a ∧ corner.x = a * 2 ^ s) →
    (∃ b : Int, 0 ≤ b ∧ corner.y = b * 2 ^ s) →
    (∃ c : Int, 0 ≤ c ∧ corner.z = c * 2 ^ s) →
    inCell (cells.getD ci default) v →
    lookupLoop entries shift v fuel e (shift - s + e.log_dim) = some ci := by
  intro s corner e ci hl
  induction hl with
  | here s corner e he =>
    intro _ fuel _ _ _ _ _ _
    cases fuel with
    | zero => simp [lookupLoop, he]
    | succ fuel => simp [lookupLoop, he]
  | child s corner e kx ky kz ci hpos hkx hky hkz hlin ih =>
    intro hv fuel hsshift hsfuel hax hby hcz hvin
    cases hv with
    | leaf _ _ _ hld _ _ _ => omega
    | node _ _ _ _ hls _ hch =>
      have hv2 := hch kx ky kz hkx hky hkz
      obtain ⟨⟨i1, i2, i3⟩, ⟨j1, j2, j3⟩⟩ := leafIn_box entries cells hlin hv2
      dsimp only at i1 i2 i3 j1 j2 j3
      obtain ⟨hv1, hv2x, hv3, hv4, hv5, hv6⟩ := hvin
      obtain ⟨a, ha0, haeq⟩ := hax
      obtain ⟨b, hb0, hbeq⟩ := hby
      obtain ⟨c, hc0, hceq⟩ := hcz
      obtain ⟨f, rfl⟩ : ∃ f, fuel = f + 1 := ⟨fuel - 1, by omega⟩
      have hml : s - e.log_dim + e.log_dim = s := by omega
      have hsp : (2 : Int) ^ s = 2 ^ e.log_dim * 2 ^ (s - e.log_dim) := by
        rw [← pow_add]
        congr 1
        omega
      have hdx : maskLow (asr v.x (s - e.log_dim)) e.log_dim = (kx : Int) := by
        apply digit_extract (s - e.log_dim) e.log_dim a kx v.x
          (Int.natCast_nonneg kx) (by exact_mod_cast hkx)
        · rw [hml]
          have h := le_trans i1 hv1
          linarith [haeq ▸ h]
        · rw [hml]
          have h := le_trans hv4 j1
          linarith [haeq ▸ h]
      have hdy : maskLow (asr v.y (s - e.log_dim)) e.log_dim = (ky : Int) := by
        apply digit_extract (s - e.log_dim) e.log_dim b ky v.y
          (Int.natCast_nonneg ky) (by exact_mod_cast hky)
        · rw [hml]
          have h := le_trans i2 hv2x
          linarith [hbeq ▸ h]
        · rw [hml]
          have h := le_trans hv5 j2
          linarith [hbeq ▸ h]
      have hdz : maskLow (asr v.z (s - e.log_dim)) e.log_dim = (kz : Int) := by
        apply digit_extract (s - e.log_dim) e.log_dim c kz v.z
          (Int.natCast_nonneg kz) (by exact_mod_cast hkz)
        · rw [hml]
          have h := le_trans i3 hv3
          linarith [hceq ▸ h]
        · rw [hml]
          have h := le_trans hv6 j3
          linarith [hceq ▸ h]
      have hexp : shift - (shift - s + e.log_dim) = s - e.log_dim := by omega
      simp only [lookupLoop, if_neg (by omega : ¬ e.log_dim = 0)]
      rw [hexp, hdx, hdy, hdz, natCast_childIdx]
      have harg : shift - s + e.log_dim +
          (entries.getD (childIdx e.begin e.log_dim kx ky kz) default).log_dim
          = shift - (s - e.log_dim) +
            (entries.getD (childIdx e.begin e.log_dim kx ky kz) default).log_dim := by
        omega
      rw [harg]
      apply ih hv2 f (by omega) (by omega)
      · refine ⟨a * 2 ^ e.log_dim + kx,
          add_nonneg (mul_nonneg ha0 (by positivity)) (Int.natCast_nonneg kx), ?_⟩
        dsimp only
        rw [haeq, hsp]
        ring
      · refine ⟨b * 2 ^ e.log_dim + ky,
          add_nonneg (mul_nonneg hb0 (by positivity)) (Int.natCast_nonneg ky), ?_⟩
        dsimp only
        rw [hbeq, hsp]
        ring
      · refine ⟨c * 2 ^ e.log_dim + kz,
          add_nonneg (mul_nonneg hc0 (by positivity)) (Int.natCast_nonneg kz), ?_⟩
        dsimp only
        rw [hceq, hsp]
        ring
      · exact ⟨hv1, hv2x, hv3, hv4, hv5, hv6⟩

/-- Claim C1: for every well-formed frozen grid (valid hierarchy below the
top level consistent with `shift` and `dims`, child blocks present, leaf
cells bounding exactly their blocks), for every leaf cell of that grid and
every voxel inside that cell's inclusive min and max bounds,
`lookup_entry` returns that cell's index (the fuel `shift + 1` never runs
out on such a grid). -/
theorem lookup_entry_consistent (entries : List Entry) (cells : List Cell)
    (shift : Nat) (dims : ivec3) (hwf : GridWF entries cells shift dims)
    (ci : Nat) (hleaf : IsLeafCell entries shift dims ci) (v : ivec3)
    (hv : inCell (cells.getD ci default) v) :
    lookup_entry entries shift dims v = some ci := by
  obtain ⟨a, b, c, hca, hcb, hcc, hl⟩ := hleaf
  have hvn := hwf.top a b c hca hcb hcc
  obtain ⟨⟨i1, i2, i3⟩, ⟨j1, j2, j3⟩⟩ := leafIn_box entries cells hl hvn
  dsimp only at i1 i2 i3 j1 j2 j3
  obtain ⟨hv1, hv2, hv3, hv4, hv5, hv6⟩ := hv
  have h2s : (0 : Int) < 2 ^ shift := by positivity
  have hax : asr v.x shift = (a : Int) := by
    apply asr_block
    · linarith [le_trans i1 hv1]
    · have h := le_trans hv4 j1
      have he : ((a : Int) + 1) * 2 ^ shift = (a : Int) * 2 ^ shift + 2 ^ shift := by
        ring
      linarith
  have hby : asr v.y shift = (b : Int) := by
    apply asr_block
    · linarith [le_trans i2 hv2]
    · have h := le_trans hv5 j2
      have he : ((b : Int) + 1) * 2 ^ shift = (b : Int) * 2 ^ shift + 2 ^ shift := by
        ring
      linarith
  have hcz : asr v.z shift = (c : Int) := by
    apply asr_block
    · linarith [le_trans i3 hv3]
    · have h := le_trans hv6 j3
      have he : ((c : Int) + 1) * 2 ^ shift = (c : Int) * 2 ^ shift + 2 ^ shift := by
        ring
      linarith
  have hdxc : ((dims.x.toNat : Nat) : Int) = dims.x :=
    Int.toNat_of_nonneg (le_of_lt hwf.dims_x)
  have hdyc : ((dims.y.toNat : Nat) : Int) = dims.y :=
    Int.toNat_of_nonneg (le_of_lt hwf.dims_y)
  show lookupLoop entries shift v (shift + 1) _ _ = some ci
  rw [hax, hby, hcz]
  have hti : ((a : Int) + dims.x * ((b : Int) + dims.y * (c : Int))).toNat
      = a + dims.x.toNat * (b + dims.y.toNat * c) := by
    rw [← hdxc, ← hdyc,
      show ((a : Int) + (dims.x.toNat : Int) *
          ((b : Int) + (dims.y.toNat : Int) * (c : Int)))
        = ((a + dims.x.toNat * (b + dims.y.toNat * c) : Nat) : Int) by
          push_cast; ring,
      Int.toNat_natCast]
    simp only [Int.toNat_natCast]
  rw [hti,
    show (entries.getD (a + dims.x.toNat * (b + dims.y.toNat * c))
        default).log_dim
      = shift - shift +
        (entries.getD (a + dims.x.toNat * (b + dims.y.toNat * c))
          default).log_dim by omega]
  exact lookupLoop_finds entries cells shift v hl hvn (shift + 1)
    (le_refl shift) (by omega)
    ⟨(a : Int), Int.natCast_nonneg a, rfl⟩
    ⟨(b : Int), Int.natCast_nonneg b, rfl⟩
    ⟨(c : Int), Int.natCast_nonneg c, rfl⟩
    ⟨hv1, hv2, hv3, hv4, hv5, hv6⟩

theorem lookupLoop_total (entries : List Entry) (shift : Nat) (v : ivec3)
    {e : Entry} {b : Nat} (hdb : DescentBounded entries e b) :
    ∀ (fuel d : Nat), b ≤ fuel →
    ∃ ci : Nat, lookupLoop entries shift v fuel e d = some ci := by
  induction hdb with
  | leaf e b he =>
    intro fuel d _
    refine ⟨e.begin, ?_⟩
    cases fuel with
    | zero => simp [lookupLoop, he]
    | succ fuel => simp [lookupLoop, he]
  | node e b hpos hle hch ih =>
    intro fuel d hbf
    obtain ⟨f, rfl⟩ : ∃ f, fuel = f + 1 := ⟨fuel - 1, by omega⟩
    have h2l : (0 : Int) < 2 ^ e.log_dim := by positivity
    have hx0 : 0 ≤ maskLow (asr v.x (shift - d)) e.log_dim :=
      Int.emod_nonneg _ (ne_of_gt h2l)
    have hy0 : 0 ≤ maskLow (asr v.y (shift - d)) e.log_dim :=
      Int.emod_nonneg _ (ne_of_gt h2l)
    have hz0 : 0 ≤ maskLow (asr v.z (shift - d)) e.log_dim :=
      Int.emod_nonneg _ (ne_of_gt h2l)
    have hxlt : maskLow (asr v.x (shift - d)) e.log_dim < 2 ^ e.log_dim :=
      Int.emod_lt_of_pos _ h2l
    have hylt : maskLow (asr v.y (shift - d)) e.log_dim < 2 ^ e.log_dim :=
      Int.emod_lt_of_pos _ h2l
    have hzlt : maskLow (asr v.z (shift - d)) e.log_dim < 2 ^ e.log_dim :=
      Int.emod_lt_of_pos _ h2l
    obtain ⟨nx, hnx⟩ := Int.eq_ofNat_of_zero_le hx0
    obtain ⟨ny, hny⟩ := Int.eq_ofNat_of_zero_le hy0
    obtain ⟨nz, hnz⟩ := Int.eq_ofNat_of_zero_le hz0
    simp only [lookupLoop, if_neg (by omega : ¬ e.log_dim = 0)]
    rw [hnx, hny, hnz, natCast_childIdx]
    apply ih (childIdx e.begin e.log_dim nx ny nz)
    · refine ⟨nx, ny, nz, ?_, ?_, ?_, rfl⟩
      · rw [hnx] at hxlt
        exact_mod_cast hxlt
      · rw [hny] at hylt
        exact_mod_cast hylt
      · rw [hnz] at hzlt
        exact_mod_cast hzlt
    · omega

/-- Claim C7: on a well-formed entry array, where along any descent every
child block is present implicitly through the masked index staying inside
the owned block and the accumulated `log_dim` never exceeds `shift`, the
descent loop of `lookup_entry` terminates for every voxel input: with
fuel `shift + 1` it never exhausts its fuel and returns a leaf index. -/
theorem lookup_entry_terminates (entries : List Entry) (shift : Nat)
    (dims : ivec3)
    (hwf : ∀ i : Nat, DescentBounded entries (entries.getD i default) shift)
    (v : ivec3) :
    ∃ ci : Nat, lookup_entry entries shift dims v = some ci :=
  lookupLoop_total entries shift v (hwf _) (shift + 1) _ (by omega)

theorem validNodeEx :
    ValidNode entriesEx cellsEx 1 ⟨0, 0, 0⟩ ⟨1, 1⟩ := by
  apply ValidNode.node 1 ⟨0, 0, 0⟩ ⟨1, 1⟩ (by decide) (by decide)
  · intro kx ky kz hkx hky hkz
    have hkx2 : kx < 2 := hkx
    have hky2 : ky < 2 := hky
    have hkz2 : kz < 2 := hkz
    interval_cases kx <;> interval_cases ky <;> interval_cases kz <;> decide
  · intro kx ky kz hkx hky hkz
    have hkx2 : kx < 2 := hkx
    have hky2 : ky < 2 := hky
    have hkz2 : kz < 2 := hkz
    interval_cases kx <;> interval_cases ky <;> interval_cases kz <;>
      exact ValidNode.leaf _ _ _ (by decide) (by decide) (by decide) (by decide)

theorem gridWFEx : GridWF entriesEx cellsEx 1 ⟨1, 1, 1⟩ := by
  refine ⟨by norm_num, by norm_num, by norm_num, ?_⟩
  intro a b c ha hb hc
  have ha1 : (a : Int) < 1 := ha
  have hb1 : (b : Int) < 1 := hb
  have hc1 : (c : Int) < 1 := hc
  have ha0 : a = 0 := by omega
  have hb0 : b = 0 := by omega
  have hc0 : c = 0 := by omega
  subst ha0 hb0 hc0
  have hc1 : (⟨((0 : Nat) : Int) * 2 ^ 1, ((0 : Nat) : Int) * 2 ^ 1,
      ((0 : Nat) : Int) * 2 ^ 1⟩ : ivec3) = ⟨0, 0, 0⟩ := by
    norm_num
  rw [hc1]
  exact validNodeEx

theorem isLeafCellEx : IsLeafCell entriesEx 1 ⟨1, 1, 1⟩ 5 := by
  refine ⟨0, 0, 0, by norm_num, by norm_num, by norm_num, ?_⟩
  have hc1 : (⟨((0 : Nat) : Int) * 2 ^ 1, ((0 : Nat) : Int) * 2 ^ 1,
      ((0 : Nat) : Int) * 2 ^ 1⟩ : ivec3) = ⟨0, 0, 0⟩ := by
    norm_num
  rw [hc1]
  show LeafIn entriesEx 1 ⟨0, 0, 0⟩ ⟨1, 1⟩ 5
  apply LeafIn.child 1 ⟨0, 0, 0⟩ ⟨1, 1⟩ 1 0 1 5 (by decide) (by decide)
    (by decide) (by decide)
  have h : entriesEx.getD (childIdx 1 1 1 0 1) default = ⟨0, 5⟩ := by decide
  rw [h]
  exact LeafIn.here _ _ _ rfl

theorem lookup_entry_consistent_witness :
    IsLeafCell entriesEx 1 ⟨1, 1, 1⟩ 5 ∧
    inCell (cellsEx.getD 5 default) ⟨1, 0, 1⟩ ∧
    lookup_entry entriesEx 1 ⟨1, 1, 1⟩ ⟨1, 0, 1⟩ = some 5 :=
  ⟨isLeafCellEx, by decide,
    lookup_entry_consistent entriesEx cellsEx 1 ⟨1, 1, 1⟩ gridWFEx 5
      isLeafCellEx ⟨1, 0, 1⟩ (by decide)⟩

theorem descentBoundedEx :
    ∀ i : Nat, DescentBounded entriesEx (entriesEx.getD i default) 1 := by
  intro i
  by_cases h : i < 9
  · interval_cases i
    · apply DescentBounded.node _ _ (by decide) (by decide)
      intro j hj
      obtain ⟨kx, ky, kz, hkx, hky, hkz, rfl⟩ := hj
      have hkx2 : kx < 2 := hkx
      have hky2 : ky < 2 := hky
      have hkz2 : kz < 2 := hkz
      interval_cases kx <;> interval_cases ky <;> interval_cases kz <;>
        exact DescentBounded.leaf _ _ (by decide)
    all_goals exact DescentBounded.leaf _ _ (by decide)
  · have he : entriesEx.getD i default = default :=
      List.getD_eq_default _ _ (by simp [entriesEx]; omega)
    rw [he]
    exact DescentBounded.leaf _ _ rfl

theorem lookup_entry_terminates_witness :
    (∀ i : Nat, DescentBounded entriesEx (entriesEx.getD i default) 1) ∧
    ∃ ci : Nat, lookup_entry entriesEx 1 ⟨1, 1, 1⟩ ⟨0, 1, 1⟩ = some ci :=
  ⟨descentBoundedEx,
    lookup_entry_terminates entriesEx 1 ⟨1, 1, 1⟩ descentBoundedEx ⟨0, 1, 1⟩⟩

end Hagrid

